import Mathlib

/-!
Verification development for the Highlighter2 shift-report text-extraction
engine (`src/parser.py`).  The Python functions `_clean_spaces`,
`normalize_ecs_base`, `extract_metadata`, `_clip_relevant_zone` and
`extract_ecs_rows` are shallowly embedded over `List Char`; the compiled
regular expressions they use are embedded as hand-written backtracking
matchers faithful to Python `re` semantics (leftmost search, greedy
quantifiers with backtracking, `\b` word boundaries that inspect the
character preceding the current position, `re.IGNORECASE`).
-/

namespace HL2

abbrev Chars := List Char

/-- ASCII lowercase/uppercase letter pairs, used to embed Python's
case-insensitive matching and `.upper()` on the ASCII range. -/
def casePairs : List (Char × Char) :=
  [('a','A'), ('b','B'), ('c','C'), ('d','D'), ('e','E'), ('f','F'), ('g','G'),
   ('h','H'), ('i','I'), ('j','J'), ('k','K'), ('l','L'), ('m','M'), ('n','N'),
   ('o','O'), ('p','P'), ('q','Q'), ('r','R'), ('s','S'), ('t','T'), ('u','U'),
   ('v','V'), ('w','W'), ('x','X'), ('y','Y'), ('z','Z')]

def LOWERS : List Char := casePairs.map Prod.fst

def UPPERS : List Char := casePairs.map Prod.snd

def DIGITS : List Char := ['0','1','2','3','4','5','6','7','8','9']

/-- Embedding of Python `str.upper` on an ASCII character. -/
def upC (c : Char) : Char :=
  match casePairs.find? (fun p => p.1 = c) with
  | some p => p.2
  | none => c

/-- Embedding of Python `str.lower` on an ASCII character. -/
def downC (c : Char) : Char :=
  match casePairs.find? (fun p => p.2 = c) with
  | some p => p.1
  | none => c

/-- Character class `\d` of the embedded patterns. -/
def isDigitC (c : Char) : Bool := DIGITS.contains c

/-- Character class `[A-Za-z]` (also `[A-Z]` under `re.IGNORECASE`). -/
def isAlphaC (c : Char) : Bool := UPPERS.contains c || LOWERS.contains c

/-- Character class `[0-9A-Z]` under `re.IGNORECASE`. -/
def isAlnumC (c : Char) : Bool := isAlphaC c || isDigitC c

/-- Word characters for `\b` (ASCII fragment of Python `\w`). -/
def isWordC (c : Char) : Bool := isAlnumC c || c = '_'

/-- Whitespace class `\s` (ASCII fragment). -/
def isWs (c : Char) : Bool :=
  c = ' ' || c = '\t' || c = '\n' || c = '\r' ||
  c = Char.ofNat 11 || c = Char.ofNat 12

/-- Characters matched by the `[ \t]+` pattern of `_clean_spaces`. -/
def isSpTab (c : Char) : Bool := c = ' ' || c = '\t'

/-- ASCII apostrophe (code 39). -/
def apoC : Char := Char.ofNat 39

/-- Curly right single quote (U+2019), accepted by the zone-start pattern. -/
def curlyC : Char := Char.ofNat 8217

/-- Python `str.strip()`: drop leading and trailing whitespace. -/
def pyStrip (l : Chars) : Chars :=
  ((l.dropWhile isWs).reverse.dropWhile isWs).reverse

/-- Replacement loop of `re.sub(r"[ \t]+", " ", s)`: collapse every run of
spaces/tabs to a single space.  The flag records whether the current run
already emitted its space. -/
def collapseSpTab : Bool → Chars → Chars
  | _, [] => []
  | inRun, c :: cs =>
    if isSpTab c then
      if inRun then collapseSpTab true cs else ' ' :: collapseSpTab true cs
    else c :: collapseSpTab false cs

/-- Embedding of `_clean_spaces`: collapse `[ \t]+` runs to one space, then
strip. -/
def _clean_spaces (l : Chars) : Chars := pyStrip (collapseSpTab false l)

/-- Greedy `\s*`: returns the remaining suffix after the maximal
whitespace run. -/
def dropWs : Chars → Chars
  | [] => []
  | c :: cs => if isWs c then dropWs cs else c :: cs

/-- Exact-repetition character class matcher (`[cls]{n}`): consume exactly
`n` characters satisfying `p`, returning them and the rest. -/
def takeClass (p : Char → Bool) : Nat → Chars → Option (Chars × Chars)
  | 0, cs => some ([], cs)
  | _ + 1, [] => none
  | n + 1, c :: cs =>
    if p c then (takeClass p n cs).map (fun g => (c :: g.1, g.2)) else none

/-- Case-insensitive literal matcher: both the pattern and the text are
lowercased character-wise.  Returns the rest of the text. -/
def litCI : Chars → Chars → Option Chars
  | [], cs => some cs
  | _ :: _, [] => none
  | p :: ps, c :: cs => if downC c = downC p then litCI ps cs else none

/-- Word-boundary test used before a pattern whose first character is a
word character: the preceding character (if any) must not be one. -/
def boundaryB : Option Char → Bool
  | none => true
  | some p => !isWordC p

/-- Captured groups of one `_ECS_BASE_RE` match, as matched in the text. -/
structure EcsGroups where
  g1 : Char
  g2 : Chars
  g3 : Chars
  g4 : Chars
deriving DecidableEq, Repr

/-- Separator `\s*[- ]?\s*` of `_ECS_BASE_RE`: maximal whitespace run, an
optional hyphen (a space here is already taken by the first `\s*`), then
another maximal whitespace run.  Deterministic because the following
class `[0-9A-Z]` is disjoint from whitespace and hyphen. -/
def dropSep (cs : Chars) : Chars :=
  match dropWs cs with
  | [] => []
  | c :: cs' => if c = '-' || c = ' ' then dropWs cs' else c :: cs'

/-- Tail of an `_ECS_BASE_RE` attempt for a fixed length `n` of the
letters group `[A-Z]{2,3}`: `[A-Z]{n}\s*[- ]?\s*([0-9A-Z]{2})\s*([A-Z]{2})\b`.
Returns the three groups and the unconsumed suffix. -/
def ecsTail (n : Nat) (cs : Chars) : Option ((Chars × Chars × Chars) × Chars) :=
  match takeClass isAlphaC n cs with
  | none => none
  | some (g2, r2) =>
    match takeClass isAlnumC 2 (dropSep r2) with
    | none => none
    | some (g3, r4) =>
      match takeClass isAlphaC 2 (dropWs r4) with
      | none => none
      | some (g4, r6) =>
        match r6 with
        | [] => some ((g2, g3, g4), [])
        | c :: rest => if isWordC c then none else some ((g2, g3, g4), c :: rest)

/-- Attempt of `_ECS_BASE_RE` (with `re.IGNORECASE`) at the current
position, the leading `\b` having been checked by the caller:
`(\d)\s*([A-Z]{2,3})\s*[- ]?\s*([0-9A-Z]{2})\s*([A-Z]{2})\b`.
The greedy `{2,3}` tries three letters first and backtracks to two.
Returns the groups and the unconsumed suffix. -/
def ecsAttempt : Chars → Option (EcsGroups × Chars)
  | [] => none
  | c :: cs =>
    if isDigitC c then
      let r1 := dropWs cs
      match ecsTail 3 r1 with
      | some (g, rest) => some (⟨c, g.1, g.2.1, g.2.2⟩, rest)
      | none =>
        match ecsTail 2 r1 with
        | some (g, rest) => some (⟨c, g.1, g.2.1, g.2.2⟩, rest)
        | none => none
    else none

/-- Attempt of `_ITEM_RE` = `\b\d{4}(?:\.\d)?\b` at the current position
(leading `\b` checked by the caller).  The greedy optional `\.\d` is
taken when possible, backtracking to the bare four digits when the final
`\b` then fails.  Returns the matched token and the unconsumed suffix. -/
def itemAttempt (cs : Chars) : Option (Chars × Chars) :=
  match takeClass isDigitC 4 cs with
  | none => none
  | some (d4, r4) =>
    match r4 with
    | '.' :: d :: rest =>
      if isDigitC d then
        match rest with
        | [] => some (d4 ++ ['.', d], [])
        | e :: _ => if isWordC e then some (d4, r4) else some (d4 ++ ['.', d], rest)
      else some (d4, r4)
    | c :: _ => if isWordC c then none else some (d4, r4)
    | [] => some (d4, r4)

/-- Generic embedding of `re.search` for a pattern with no leading `\b`:
try `f` at every position left to right, returning the start index and
the attempt's value for the first success. -/
def scanIdx (f : Chars → Option α) : Chars → Nat → Option (Nat × α)
  | [], _ => none
  | c :: cs, i =>
    match f (c :: cs) with
    | some v => some (i, v)
    | none => scanIdx f cs (i + 1)

/-- Generic embedding of `re.search` for a pattern starting with `\b`
followed by a word character: attempts are gated on the preceding
character not being a word character. -/
def scanPrevIdx (f : Chars → Option α) : Chars → Option Char → Nat → Option (Nat × α)
  | [], _, _ => none
  | c :: cs, prev, i =>
    if boundaryB prev then
      match f (c :: cs) with
      | some v => some (i, v)
      | none => scanPrevIdx f cs (some c) (i + 1)
    else scanPrevIdx f cs (some c) (i + 1)

/-- Embedding of `_ECS_BASE_RE.finditer`: non-overlapping matches, left to
right; like Python, the next search starts at the end of the previous
match, and `\b` inspects the true preceding character.  Each element is
`(start, stop, groups)`. -/
def ecsFindIter : Chars → Option Char → Nat → Nat → List (Nat × Nat × EcsGroups)
  | [], _, _, _ => []
  | c :: cs, prev, i, lo =>
    if lo ≤ i && boundaryB prev then
      match ecsAttempt (c :: cs) with
      | some (g, rest) =>
        let stop := i + ((c :: cs).length - rest.length)
        (i, stop, g) :: ecsFindIter cs (some c) (i + 1) stop
      | none => ecsFindIter cs (some c) (i + 1) lo
    else ecsFindIter cs (some c) (i + 1) lo

/-- Embedding of `_ITEM_RE.findall`: the matched tokens of the
non-overlapping left-to-right matches. -/
def itemFindAll : Chars → Option Char → Nat → Nat → List Chars
  | [], _, _, _ => []
  | c :: cs, prev, i, lo =>
    if lo ≤ i && boundaryB prev then
      match itemAttempt (c :: cs) with
      | some (tok, rest) =>
        let stop := i + ((c :: cs).length - rest.length)
        tok :: itemFindAll cs (some c) (i + 1) stop
      | none => itemFindAll cs (some c) (i + 1) lo
    else itemFindAll cs (some c) (i + 1) lo

/-- Base code built from the four groups of an `_ECS_BASE_RE` match:
`f"{m.group(1)}{m.group(2).upper()}{m.group(3).upper()}{m.group(4).upper()}"`. -/
def ecsBaseOf (g : EcsGroups) : Chars :=
  g.g1 :: (g.g2.map upC ++ g.g3.map upC ++ g.g4.map upC)

/-- Embedding of `_ECS_BASE_RE.search`: groups of the leftmost match. -/
def ecsSearch (cs : Chars) : Option EcsGroups :=
  (scanPrevIdx ecsAttempt cs none 0).map (fun x => x.2.1)

/-- Embedding of `normalize_ecs_base`: `None` on the empty string, else
uppercase, collapse spaces, and return the concatenated groups of the
leftmost `_ECS_BASE_RE` match (or `None` when there is none). -/
def normalize_ecs_base (raw : String) : Option String :=
  if raw.data = [] then none
  else
    match ecsSearch (_clean_spaces (raw.data.map upC)) with
    | some g => some (String.mk (ecsBaseOf g))
    | none => none

/-- Attempt of `Today[’']?s\s+Tasks` (with `re.IGNORECASE`) at the
current position. -/
def todaysAttempt (cs : Chars) : Option Unit :=
  match litCI "today".data cs with
  | none => none
  | some r1 =>
    let r2opt : Option Chars :=
      match r1 with
      | c :: rest =>
        if c = curlyC || c = apoC then
          match rest with
          | s :: rest2 => if downC s = 's' then some rest2 else none
          | [] => none
        else if downC c = 's' then some rest else none
      | [] => none
    match r2opt with
    | none => none
    | some [] => none
    | some (c :: rest) =>
      if isWs c then
        match litCI "tasks".data (dropWs rest) with
        | some _ => some ()
        | none => none
      else none

/-- Attempt of `\bManpower\b` (with `re.IGNORECASE`) at the current
position, the leading `\b` having been checked by the caller. -/
def manpowerAttempt (cs : Chars) : Option Unit :=
  match litCI "manpower".data cs with
  | none => none
  | some [] => some ()
  | some (c :: _) => if isWordC c then none else some ()

/-- Python slice `t[a:b]` on a character list (empty when `b ≤ a`). -/
def sliceList (cs : Chars) (a b : Nat) : Chars := (cs.take b).drop a

/-- Embedding of `_clip_relevant_zone`: the slice from the start of the
first `Today[’']?s\s+Tasks` match (default 0) to the start of the first
`\bManpower\b` match (default the end of the text). -/
def _clip_relevant_zone (cs : Chars) : Chars :=
  let start :=
    match scanIdx todaysAttempt cs 0 with
    | some (i, _) => i
    | none => 0
  let stop :=
    match scanPrevIdx manpowerAttempt cs none 0 with
    | some (i, _) => i
    | none => cs.length
  sliceList cs start stop

/-- Per-chunk item loop of `extract_ecs_rows`: emit `(ecs_base, item)` for
each item not already in the `seen` set of this chunk. -/
def chunkRows (code : String) (seen : List String) : List String → List (String × String)
  | [] => []
  | it :: rest =>
    if seen.contains it then chunkRows code seen rest
    else (code, it) :: chunkRows code (it :: seen) rest

/-- Chunk decomposition of `extract_ecs_rows`: for each `_ECS_BASE_RE`
match, its base code together with the zone slice from the end of the
match to the start of the next match (or the zone's end). -/
def chunksGo (zone : Chars) : List (Nat × Nat × EcsGroups) → List (String × Chars)
  | [] => []
  | (_, stop, g) :: rest =>
    let chunkEnd :=
      match rest with
      | (s2, _, _) :: _ => s2
      | [] => zone.length
    (String.mk (ecsBaseOf g), sliceList zone stop chunkEnd) :: chunksGo zone rest

def chunksOf (zone : Chars) : List (String × Chars) :=
  chunksGo zone (ecsFindIter zone none 0 0)

/-- Items of one chunk, as strings (`_ITEM_RE.findall(chunk)`). -/
def chunkItems (chunk : Chars) : List String :=
  (itemFindAll chunk none 0 0).map String.mk

/-- Rows extracted from an already clipped zone: for each equipment-code
match, its chunk's items, deduplicated per chunk with first-occurrence
order preserved. -/
def ecsRowsOfZone (zone : Chars) : List (String × String) :=
  (chunksOf zone).flatMap (fun p => chunkRows p.1 [] (chunkItems p.2))

/-- Embedding of `extract_ecs_rows`: clip the relevant zone, then extract
the per-chunk deduplicated rows. -/
def extract_ecs_rows (txt : String) : List (String × String) :=
  ecsRowsOfZone (_clip_relevant_zone txt.data)

/-- Attempt of `Signed\s*\(<phrase>\)\s*([A-Za-z][A-Za-z '\-]+)` (with
`re.IGNORECASE`) at the current position, returning the captured group.
The greedy trailing `+` is maximal since the pattern ends there. -/
def signedAttempt (phrase : String) (cs : Chars) : Option Chars :=
  match litCI "signed".data cs with
  | none => none
  | some r1 =>
    match litCI ("(" ++ phrase ++ ")").data (dropWs r1) with
    | none => none
    | some r3 =>
      match dropWs r3 with
      | c :: t =>
        if isAlphaC c then
          let run := t.takeWhile (fun x => isAlphaC x || x = ' ' || x = apoC || x = '-')
          if run = [] then none else some (c :: run)
        else none
      | [] => none

/-- Supervisor field: `_clean_spaces` of the group of the first
`Signed (Supervisor)` match, or the empty string. -/
def signedName (phrase : String) (cs : Chars) : String :=
  match scanIdx (signedAttempt phrase) cs 0 with
  | some (_, g) => String.mk (_clean_spaces g)
  | none => ""

def MONTHS : List String :=
  ["January", "February", "March", "April", "May", "June",
   "July", "August", "September", "October", "November", "December"]

/-- Alternation of the twelve month names (case-insensitive): returns the
matched text and the rest.  At most one alternative can match since no
month name is a prefix of another. -/
def monthAlt : List String → Chars → Option (Chars × Chars)
  | [], _ => none
  | m :: ms, cs =>
    match litCI m.data cs with
    | some r => some (cs.take m.data.length, r)
    | none => monthAlt ms cs

/-- Digit value via the `DIGITS` table. -/
def digitVal (c : Char) : Nat := DIGITS.indexOf c

def digitsVal (l : Chars) : Nat := l.foldl (fun a c => a * 10 + digitVal c) 0

/-- Result of one primary date pattern match:
`\b(\d{1,2})(?:st|nd|rd|th)?\s+(<month>)\b(?:\s+(\d{4}))?`. -/
structure DateMatch where
  day : Nat
  monthName : Chars
  year : Option Nat
deriving DecidableEq, Repr

/-- Optional ordinal suffix `(?:st|nd|rd|th)?` (case-insensitive).  When
it consumes two letters the alternative of not consuming them cannot
rescue a later failure, because the following `\s+` cannot match a
letter; so committing is faithful. -/
def ordTry (cs : Chars) : Option Chars :=
  match cs with
  | a :: b :: r =>
    let x := downC a
    let y := downC b
    if (x = 's' && y = 't') || (x = 'n' && y = 'd') ||
       (x = 'r' && y = 'd') || (x = 't' && y = 'h') then some r else none
  | _ => none

/-- Tail of the primary date pattern after the day digits:
ordinal suffix, `\s+`, month alternation, `\b`, optional `\s+(\d{4})`. -/
def primaryTail (day : Nat) (cs : Chars) : Option DateMatch :=
  let cs1 := match ordTry cs with | some r => r | none => cs
  match cs1 with
  | [] => none
  | c :: r =>
    if isWs c then
      match monthAlt MONTHS (dropWs r) with
      | none => none
      | some (mname, r3) =>
        match r3 with
        | [] => some ⟨day, mname, none⟩
        | c2 :: r2 =>
          if isWordC c2 then none
          else
            let year :=
              if isWs c2 then
                match takeClass isDigitC 4 (dropWs r2) with
                | some (ds, _) => some (digitsVal ds)
                | none => none
              else none
            some ⟨day, mname, year⟩
    else none

/-- Attempt of the primary date pattern at the current position (leading
`\b` checked by the caller).  The greedy `(\d{1,2})` tries two digits
first and backtracks to one. -/
def primaryAttempt : Chars → Option DateMatch
  | [] => none
  | c :: cs =>
    if isDigitC c then
      match cs with
      | d :: cs2 =>
        if isDigitC d then
          match primaryTail (digitVal c * 10 + digitVal d) cs2 with
          | some dm => some dm
          | none => primaryTail (digitVal c) cs
        else primaryTail (digitVal c) cs
      | [] => primaryTail (digitVal c) []
    else none

/-- Leftmost match of the primary date pattern (`re.search`). -/
def primarySearch (cs : Chars) : Option DateMatch :=
  (scanPrevIdx primaryAttempt cs none 0).map (fun x => x.2)

/-- Attempt of the fallback pattern `Date\s*\n?\s*([^\n]+)` (with
`re.IGNORECASE`) at the current position, returning the captured group
already passed through `.strip()`.  Backtracking over the whitespace
part reduces to: capture from the first character after the maximal
whitespace run when one exists; otherwise the capture is a single
non-newline whitespace character (which strips to the empty string)
when the all-whitespace remainder holds one, else no match. -/
def fallbackAttempt (cs : Chars) : Option Chars :=
  match litCI "date".data cs with
  | none => none
  | some r =>
    match dropWs r with
    | c :: rest => some (pyStrip (c :: rest.takeWhile (fun x => x ≠ '\n')))
    | [] => if r.any (fun x => x ≠ '\n') then some [] else none

/-- Leftmost match of the fallback pattern, stripped capture. -/
def fallbackSearch (cs : Chars) : Option Chars :=
  (scanIdx fallbackAttempt cs 0).map (fun x => x.2)

/-- Month number of the code: `MONTHS.index(md.group(2).capitalize()) + 1`. -/
def pyCapitalize : Chars → Chars
  | [] => []
  | c :: cs => upC c :: cs.map downC

def monthNumOf (name : Chars) : Nat :=
  MONTHS.indexOf (String.mk (pyCapitalize name)) + 1

/-- Leap-year rule of `datetime.date`. -/
def isLeap (y : Nat) : Bool := y % 4 = 0 && (y % 100 ≠ 0 || y % 400 = 0)

def daysInMonth (y m : Nat) : Nat :=
  List.getD [31, if isLeap y then 29 else 28, 31, 30, 31, 30, 31, 31, 30, 31, 30, 31] (m - 1) 0

/-- Validity check of the `datetime.date(year, month, day)` constructor. -/
def validDate (y m d : Nat) : Bool :=
  1 ≤ y && y ≤ 9999 && 1 ≤ m && m ≤ 12 && 1 ≤ d && d ≤ daysInMonth y m

/-- Work-date outcome of `extract_metadata`: a constructed
`datetime.date` from the primary pattern or the last resort; the
delegation to the external lenient parser `dateutil.parser.parse`
(recorded with its raw argument and default year, its result being
outside this embedding); or the uncaught `ValueError` of an invalid
`datetime.date` construction. -/
inductive WdOutcome where
  | made (y m d : Nat)
  | lenient (raw : String) (assumedYear : Nat)
  | invalid (y m d : Nat)
deriving DecidableEq, Repr

/-- Result of `extract_metadata` (the `DocMetadata` dataclass, with the
work date generalized to `WdOutcome`). -/
structure MetaResult where
  supervisor : String
  superintendent : String
  work_date : WdOutcome
deriving DecidableEq, Repr

/-- Embedding of `extract_metadata`. -/
def extract_metadata (txt : String) (assumed_year : Nat) : MetaResult :=
  let cs := txt.data
  let sup := signedName "Supervisor" cs
  let supt := signedName "Superintendent" cs
  match primarySearch cs with
  | some dm =>
    let year := dm.year.getD assumed_year
    let mnum := monthNumOf dm.monthName
    if validDate year mnum dm.day then
      ⟨sup, supt, .made year mnum dm.day⟩
    else ⟨sup, supt, .invalid year mnum dm.day⟩
  | none =>
    match fallbackSearch cs with
    | some cap =>
      if cap ≠ [] then ⟨sup, supt, .lenient (String.mk cap) assumed_year⟩
      else if validDate assumed_year 1 1 then ⟨sup, supt, .made assumed_year 1 1⟩
      else ⟨sup, supt, .invalid assumed_year 1 1⟩
    | none =>
      if validDate assumed_year 1 1 then ⟨sup, supt, .made assumed_year 1 1⟩
      else ⟨sup, supt, .invalid assumed_year 1 1⟩

/-! ### Specification-side definitions

The following definitions restate parts of the spec's wording, to be
compared with the embedded code. -/

/-- Declarative chunk-local deduplication as the spec words it: keep the
first occurrence of each item string, in order. -/
def dedupFirstSpec (l : List String) : List String :=
  l.foldl (fun acc it => if acc.contains it then acc else acc ++ [it]) []

/-- Character preceding position `j` when the scan began with preceding
character `p0` (`none` at the very start of the text). -/
def prevAtP (p0 : Option Char) (cs : Chars) : Nat → Option Char
  | 0 => p0
  | j + 1 => cs.get? j

/-- Zone clipping as claim C1 words it: the zone starts at the first
`Today[’']?s\s+Tasks` match (default 0) and ends at the first whole-word
`Manpower` match at or after that start (default the text's end). -/
def claimClipZone (cs : Chars) : Chars :=
  let start :=
    match scanIdx todaysAttempt cs 0 with
    | some (i, _) => i
    | none => 0
  let stop :=
    match scanPrevIdx manpowerAttempt (cs.drop start) (prevAtP none cs start) start with
    | some (i, _) => i
    | none => cs.length
  sliceList cs start stop

/-- Position `a` is where the zone starts per the amended claim C1: the
least position where the `Today[’']?s\s+Tasks` pattern matches, or 0 when
it matches nowhere. -/
def zoneStartSpec (cs : Chars) (a : Nat) : Prop :=
  (todaysAttempt (cs.drop a) = some () ∧ ∀ j < a, todaysAttempt (cs.drop j) = none) ∨
  ((∀ j, todaysAttempt (cs.drop j) = none) ∧ a = 0)

/-- Position `b` is where the zone ends per the amended claim C1: the
least position anywhere in the text where whole-word `Manpower` matches,
or the text's length when it matches nowhere. -/
def zoneEndSpec (cs : Chars) (b : Nat) : Prop :=
  (boundaryB (prevAtP none cs b) = true ∧ manpowerAttempt (cs.drop b) = some () ∧
    ∀ j < b, boundaryB (prevAtP none cs j) = true → manpowerAttempt (cs.drop j) = none) ∨
  ((∀ j, boundaryB (prevAtP none cs j) = true → manpowerAttempt (cs.drop j) = none) ∧
    b = cs.length)

/-- Item-level version of the `seen`-set loop of `extract_ecs_rows`. -/
def ddAux (seen : List String) : List String → List String
  | [] => []
  | it :: rest =>
    if seen.contains it then ddAux seen rest else it :: ddAux (it :: seen) rest

/-! ### Correctness of the generic scanners -/

theorem scanIdx_eq_some (f : Chars → Option α) :
    ∀ (cs : Chars) (i k : Nat) (v : α), scanIdx f cs i = some (k, v) →
      ∃ j, k = i + j ∧ f (cs.drop j) = some v ∧ ∀ j' < j, f (cs.drop j') = none := by
  intro cs
  induction cs with
  | nil => intro i k v h; simp [scanIdx] at h
  | cons c cs ih =>
    intro i k v h
    rw [scanIdx] at h
    cases hf : f (c :: cs) with
    | some w =>
      rw [hf] at h
      refine ⟨0, ?_, ?_, ?_⟩
      · simpa using (congrArg (fun p => p.1) (Option.some.inj h)).symm
      · have hv : w = v := congrArg (fun p => p.2) (Option.some.inj h)
        simpa [hv] using hf
      · intro j' hj'; omega
    | none =>
      rw [hf] at h
      obtain ⟨j, hk, hfj, hmin⟩ := ih (i + 1) k v h
      refine ⟨j + 1, by omega, by simpa using hfj, ?_⟩
      intro j' hj'
      cases j' with
      | zero => simpa using hf
      | succ j'' => simpa using hmin j'' (by omega)

theorem scanIdx_eq_none (f : Chars → Option α) (h0 : f [] = none) :
    ∀ (cs : Chars) (i : Nat), scanIdx f cs i = none →
      ∀ j, f (cs.drop j) = none := by
  intro cs
  induction cs with
  | nil => intro i _ j; simpa using h0
  | cons c cs ih =>
    intro i h j
    rw [scanIdx] at h
    cases hf : f (c :: cs) with
    | some w => rw [hf] at h; exact absurd h (by simp)
    | none =>
      rw [hf] at h
      cases j with
      | zero => simpa using hf
      | succ j' => simpa using ih (i + 1) h j'

theorem prevAtP_shift (p0 : Option Char) (c : Char) (cs : Chars) (j : Nat) :
    prevAtP p0 (c :: cs) (j + 1) = prevAtP (some c) cs j := by
  cases j with
  | zero => simp [prevAtP]
  | succ j' => simp [prevAtP]

theorem scanPrevIdx_eq_some (f : Chars → Option α) :
    ∀ (cs : Chars) (p0 : Option Char) (i k : Nat) (v : α),
      scanPrevIdx f cs p0 i = some (k, v) →
      ∃ j, k = i + j ∧ boundaryB (prevAtP p0 cs j) = true ∧ f (cs.drop j) = some v ∧
        ∀ j' < j, boundaryB (prevAtP p0 cs j') = true → f (cs.drop j') = none := by
  intro cs
  induction cs with
  | nil => intro p0 i k v h; simp [scanPrevIdx] at h
  | cons c cs ih =>
    intro p0 i k v h
    rw [scanPrevIdx] at h
    by_cases hb : boundaryB p0 = true
    · rw [if_pos hb] at h
      cases hf : f (c :: cs) with
      | some w =>
        rw [hf] at h
        refine ⟨0, ?_, ?_, ?_, ?_⟩
        · simpa using (congrArg (fun p => p.1) (Option.some.inj h)).symm
        · simpa [prevAtP] using hb
        · have hv : w = v := congrArg (fun p => p.2) (Option.some.inj h)
          simpa [hv] using hf
        · intro j' hj'; omega
      | none =>
        rw [hf] at h
        obtain ⟨j, hk, hbj, hfj, hmin⟩ := ih (some c) (i + 1) k v h
        refine ⟨j + 1, by omega, ?_, by simpa using hfj, ?_⟩
        · rw [prevAtP_shift]; exact hbj
        · intro j' hj' hbj'
          cases j' with
          | zero => simpa using hf
          | succ j'' =>
            rw [prevAtP_shift] at hbj'
            simpa using hmin j'' (by omega) hbj'
    · rw [if_neg hb] at h
      obtain ⟨j, hk, hbj, hfj, hmin⟩ := ih (some c) (i + 1) k v h
      refine ⟨j + 1, by omega, ?_, by simpa using hfj, ?_⟩
      · rw [prevAtP_shift]; exact hbj
      · intro j' hj' hbj'
        cases j' with
        | zero => simp [prevAtP] at hbj'; simp [hbj'] at hb
        | succ j'' =>
          rw [prevAtP_shift] at hbj'
          simpa using hmin j'' (by omega) hbj'

theorem scanPrevIdx_eq_none (f : Chars → Option α) (h0 : f [] = none) :
    ∀ (cs : Chars) (p0 : Option Char) (i : Nat), scanPrevIdx f cs p0 i = none →
      ∀ j, boundaryB (prevAtP p0 cs j) = true → f (cs.drop j) = none := by
  intro cs
  induction cs with
  | nil => intro p0 i _ j _; simpa using h0
  | cons c cs ih =>
    intro p0 i h j hbj
    rw [scanPrevIdx] at h
    by_cases hb : boundaryB p0 = true
    · rw [if_pos hb] at h
      cases hf : f (c :: cs) with
      | some w => rw [hf] at h; exact absurd h (by simp)
      | none =>
        rw [hf] at h
        cases j with
        | zero => simpa using hf
        | succ j' =>
          rw [prevAtP_shift] at hbj
          simpa using ih (some c) (i + 1) h j' hbj
    · rw [if_neg hb] at h
      cases j with
      | zero => simp [prevAtP] at hbj; simp [hbj] at hb
      | succ j' =>
        rw [prevAtP_shift] at hbj
        simpa using ih (some c) (i + 1) h j' hbj

/-! ### The per-chunk dedup loop versus the declarative spec -/

theorem chunkRows_eq_map_ddAux (code : String) :
    ∀ (items seen : List String),
      chunkRows code seen items = (ddAux seen items).map (fun it => (code, it)) := by
  intro items
  induction items with
  | nil => intro seen; simp [chunkRows, ddAux]
  | cons it rest ih =>
    intro seen
    rw [chunkRows, ddAux]
    by_cases h : seen.contains it = true
    · simp only [if_pos h]; exact ih seen
    · simp only [if_neg h, List.map_cons]
      rw [ih (it :: seen)]

theorem foldl_dedup_eq_ddAux :
    ∀ (items acc seen : List String), (∀ x : String, x ∈ seen ↔ x ∈ acc) →
      items.foldl (fun acc it => if acc.contains it then acc else acc ++ [it]) acc
        = acc ++ ddAux seen items := by
  intro items
  induction items with
  | nil => intro acc seen _; simp [ddAux]
  | cons it rest ih =>
    intro acc seen hsa
    rw [List.foldl_cons, ddAux]
    by_cases h : it ∈ acc
    · rw [if_pos (List.elem_iff.mpr h), if_pos (List.elem_iff.mpr ((hsa it).mpr h))]
      exact ih acc seen hsa
    · have h2 : it ∉ seen := fun hm => h ((hsa it).mp hm)
      rw [if_neg (fun hc => h (List.elem_iff.mp hc)),
        if_neg (fun hc => h2 (List.elem_iff.mp hc))]
      rw [ih (acc ++ [it]) (it :: seen) ?_]
      · simp
      · intro x
        constructor
        · intro hx
          rcases List.mem_cons.mp hx with rfl | hx'
          · exact List.mem_append.mpr (Or.inr (List.mem_singleton.mpr rfl))
          · exact List.mem_append.mpr (Or.inl ((hsa x).mp hx'))
        · intro hx
          rcases List.mem_append.mp hx with hx' | hx'
          · exact List.mem_cons.mpr (Or.inr ((hsa x).mpr hx'))
          · exact List.mem_cons.mpr (Or.inl (List.mem_singleton.mp hx'))

theorem dedupFirstSpec_eq_ddAux (items : List String) :
    dedupFirstSpec items = ddAux [] items := by
  rw [dedupFirstSpec, foldl_dedup_eq_ddAux items [] [] (fun x => Iff.rfl)]
  simp

theorem chunkRows_eq_map_dedupFirstSpec (code : String) (items : List String) :
    chunkRows code [] items = (dedupFirstSpec items).map (fun it => (code, it)) := by
  rw [dedupFirstSpec_eq_ddAux, chunkRows_eq_map_ddAux]

theorem ddAux_nodup :
    ∀ (items seen : List String),
      (ddAux seen items).Nodup ∧ ∀ x ∈ ddAux seen items, x ∉ seen := by
  intro items
  induction items with
  | nil => intro seen; simp [ddAux]
  | cons it rest ih =>
    intro seen
    rw [ddAux]
    by_cases h : it ∈ seen
    · rw [if_pos (List.elem_iff.mpr h)]
      exact ih seen
    · rw [if_neg (fun hc => h (List.elem_iff.mp hc))]
      obtain ⟨hnd, hmem⟩ := ih (it :: seen)
      refine ⟨List.nodup_cons.mpr ⟨?_, hnd⟩, ?_⟩
      · intro hmem2
        exact hmem it hmem2 (List.mem_cons_self it seen)
      · intro x hx
        rcases List.mem_cons.mp hx with rfl | hx'
        · exact h
        · intro hxs
          exact hmem x hx' (List.mem_cons_of_mem it hxs)

theorem chunkRows_nodup (code : String) (items : List String) :
    (chunkRows code [] items).Nodup := by
  rw [chunkRows_eq_map_ddAux]
  exact ((ddAux_nodup items []).1).map (fun a b h => by simpa using h)

theorem flatMap_congrF (l : List α) (f g : α → List β) (h : ∀ x, f x = g x) :
    l.flatMap f = l.flatMap g := by
  induction l with
  | nil => rfl
  | cons a l ih => simp only [List.flatMap_cons, h a, ih]

/-! ### Field projections of `extract_metadata` -/

theorem extract_metadata_supervisor (t : String) (ay : Nat) :
    (extract_metadata t ay).supervisor = signedName "Supervisor" t.data := by
  rw [extract_metadata]
  split
  · dsimp only
    split <;> rfl
  · split
    · split
      · rfl
      · split <;> rfl
    · split <;> rfl

theorem extract_metadata_superintendent (t : String) (ay : Nat) :
    (extract_metadata t ay).superintendent = signedName "Superintendent" t.data := by
  rw [extract_metadata]
  split
  · dsimp only
    split <;> rfl
  · split
    · split
      · rfl
      · split <;> rfl
    · split <;> rfl

/-! ### Character-class facts -/

theorem mem_of_isAlphaC {c : Char} (h : isAlphaC c = true) :
    c ∈ UPPERS ∨ c ∈ LOWERS := by
  rcases Bool.or_eq_true_iff.mp h with h' | h'
  · exact Or.inl (List.elem_iff.mp h')
  · exact Or.inr (List.elem_iff.mp h')

theorem mem_of_isDigitC {c : Char} (h : isDigitC c = true) : c ∈ DIGITS :=
  List.elem_iff.mp h

theorem ball_UPPERS : ∀ c ∈ UPPERS, upC c = c ∧ isAlphaC c = true ∧
    isWs c = false ∧ isSpTab c = false ∧ c ≠ '-' ∧ c ≠ ' ' ∧
    isDigitC c = false := by decide

theorem ball_LOWERS : ∀ c ∈ LOWERS, upC c ∈ UPPERS := by decide

theorem ball_DIGITS : ∀ c ∈ DIGITS, upC c = c ∧ isDigitC c = true ∧
    isWs c = false ∧ isSpTab c = false ∧ c ≠ '-' ∧ c ≠ ' ' ∧
    isAlphaC c = false := by decide

theorem upC_mem_UPPERS_of_alpha {c : Char} (h : isAlphaC c = true) :
    upC c ∈ UPPERS := by
  rcases mem_of_isAlphaC h with h' | h'
  · rw [(ball_UPPERS c h').1]; exact h'
  · exact ball_LOWERS c h'

/-- Facts about one character of a normalized base code beyond its leading
digit: it is its own uppercase image, is not whitespace, not a space-tab,
not a hyphen, not a space. -/
theorem fixed_upC_of_mem {c : Char} (h : c ∈ UPPERS ∨ c ∈ DIGITS) :
    upC c = c ∧ isWs c = false ∧ isSpTab c = false ∧ c ≠ '-' ∧ c ≠ ' ' := by
  rcases h with h | h
  · obtain ⟨h1, _, h3, h4, h5, h6, _⟩ := ball_UPPERS c h
    exact ⟨h1, h3, h4, h5, h6⟩
  · obtain ⟨h1, _, h3, h4, h5, h6, _⟩ := ball_DIGITS c h
    exact ⟨h1, h3, h4, h5, h6⟩

theorem isAlphaC_of_mem_UPPERS {c : Char} (h : c ∈ UPPERS) : isAlphaC c = true :=
  (ball_UPPERS c h).2.1

theorem isAlnumC_of_mem {c : Char} (h : c ∈ UPPERS ∨ c ∈ DIGITS) :
    isAlnumC c = true := by
  rcases h with h | h
  · simp [isAlnumC, isAlphaC_of_mem_UPPERS h]
  · simp [isAlnumC, (ball_DIGITS c h).2.1]

/-! ### Evaluation helpers for the matchers -/

theorem dropWs_cons_not (c : Char) (cs : Chars) (h : isWs c = false) :
    dropWs (c :: cs) = c :: cs := by
  rw [dropWs, h]
  simp

theorem dropWhile_id_of (l : Chars) (h : ∀ c ∈ l, isWs c = false) :
    l.dropWhile isWs = l := by
  cases l with
  | nil => rfl
  | cons c cs =>
    rw [List.dropWhile_cons, h c (List.mem_cons_self c cs)]
    simp

theorem pyStrip_id_of (l : Chars) (h : ∀ c ∈ l, isWs c = false) :
    pyStrip l = l := by
  rw [pyStrip, dropWhile_id_of l h,
    dropWhile_id_of l.reverse (fun c hc => h c (List.mem_reverse.mp hc))]
  exact List.reverse_reverse l

theorem collapseSpTab_id_of :
    ∀ (l : Chars), (∀ c ∈ l, isSpTab c = false) → ∀ b, collapseSpTab b l = l := by
  intro l
  induction l with
  | nil => intro _ b; rfl
  | cons c cs ih =>
    intro h b
    rw [collapseSpTab, h c (List.mem_cons_self c cs)]
    simp only [Bool.false_eq_true, if_false]
    rw [ih (fun x hx => h x (List.mem_cons_of_mem c hx)) false]

theorem clean_spaces_id_of (l : Chars)
    (h : ∀ c ∈ l, isSpTab c = false ∧ isWs c = false) :
    _clean_spaces l = l := by
  rw [_clean_spaces, collapseSpTab_id_of l (fun c hc => (h c hc).1) false,
    pyStrip_id_of l (fun c hc => (h c hc).2)]

theorem takeClass_two (p : Char → Bool) (a b : Char) (r : Chars)
    (ha : p a = true) (hb : p b = true) :
    takeClass p 2 (a :: b :: r) = some ([a, b], r) := by
  rw [takeClass, ha]
  simp only [if_true]
  rw [takeClass, hb]
  simp [takeClass]

theorem takeClass_three (p : Char → Bool) (a b c : Char) (r : Chars)
    (ha : p a = true) (hb : p b = true) (hc : p c = true) :
    takeClass p 3 (a :: b :: c :: r) = some ([a, b, c], r) := by
  rw [takeClass, ha]
  simp only [if_true]
  rw [takeClass_two p b c r hb hc]
  rfl

theorem takeClass_three_fail (p : Char → Bool) (a b c : Char) (r : Chars)
    (ha : p a = true) (hb : p b = true) (hc : p c = false) :
    takeClass p 3 (a :: b :: c :: r) = none := by
  rw [takeClass, ha]
  simp only [if_true]
  rw [takeClass, hb]
  simp only [if_true]
  rw [takeClass, hc]
  simp

theorem takeClass_two_short (p : Char → Bool) (g : Char) :
    takeClass p 2 [g] = none := by
  rcases hp : p g with _ | _ <;> simp [takeClass, hp]

theorem dropSep_cons_not (c : Char) (cs : Chars)
    (h1 : isWs c = false) (h2 : c ≠ '-') (h3 : c ≠ ' ') :
    dropSep (c :: cs) = c :: cs := by
  rw [dropSep, dropWs_cons_not c cs h1]
  simp [h2, h3]

/-! ### Shape of an equipment-code match -/

theorem takeClass_spec (p : Char → Bool) :
    ∀ (n : Nat) (cs g r : Chars), takeClass p n cs = some (g, r) →
      g.length = n ∧ (∀ c ∈ g, p c = true) ∧ cs = g ++ r := by
  intro n
  induction n with
  | zero =>
    intro cs g r h
    rw [takeClass] at h
    have h1 : ([] : Chars) = g := congrArg Prod.fst (Option.some.inj h)
    have h2 : cs = r := congrArg Prod.snd (Option.some.inj h)
    subst h1; subst h2
    exact ⟨rfl, fun c hc => absurd hc (List.not_mem_nil c), rfl⟩
  | succ n ih =>
    intro cs g r h
    cases cs with
    | nil => rw [takeClass] at h; exact absurd h (by simp)
    | cons c cs' =>
      rw [takeClass] at h
      by_cases hp : p c = true
      · rw [hp] at h
        simp only [if_true] at h
        rcases htc : takeClass p n cs' with _ | ⟨g0, r0⟩ <;> rw [htc] at h
        · exact absurd h (by simp)
        · have h' : (c :: g0, r0) = (g, r) := Option.some.inj h
          have h1 : c :: g0 = g := congrArg Prod.fst h'
          have h2 : r0 = r := congrArg Prod.snd h'
          obtain ⟨hlen, hmem, hsplit⟩ := ih cs' g0 r0 htc
          subst h1; subst h2
          refine ⟨by simp [hlen], ?_, by simp [hsplit]⟩
          intro x hx
          rcases List.mem_cons.mp hx with rfl | hx'
          · exact hp
          · exact hmem x hx'
      · rw [Bool.not_eq_true] at hp
        rw [hp] at h
        simp at h

theorem ecsTail_shape (n : Nat) (cs : Chars) (g2 g3 g4 rest : Chars)
    (h : ecsTail n cs = some ((g2, g3, g4), rest)) :
    g2.length = n ∧ (∀ c ∈ g2, isAlphaC c = true) ∧
    g3.length = 2 ∧ (∀ c ∈ g3, isAlnumC c = true) ∧
    g4.length = 2 ∧ (∀ c ∈ g4, isAlphaC c = true) := by
  rw [ecsTail] at h
  rcases h1 : takeClass isAlphaC n cs with _ | ⟨a2, r2⟩ <;> rw [h1] at h
  · exact absurd h (by simp)
  · dsimp only at h
    rcases h2 : takeClass isAlnumC 2 (dropSep r2) with _ | ⟨a3, r4⟩ <;> rw [h2] at h
    · exact absurd h (by simp)
    · dsimp only at h
      rcases h3 : takeClass isAlphaC 2 (dropWs r4) with _ | ⟨a4, r6⟩ <;> rw [h3] at h
      · exact absurd h (by simp)
      · dsimp only at h
        obtain ⟨s1, s2, _⟩ := takeClass_spec isAlphaC n cs a2 r2 h1
        obtain ⟨s3, s4, _⟩ := takeClass_spec isAlnumC 2 (dropSep r2) a3 r4 h2
        obtain ⟨s5, s6, _⟩ := takeClass_spec isAlphaC 2 (dropWs r4) a4 r6 h3
        have hg : a2 = g2 ∧ a3 = g3 ∧ a4 = g4 := by
          rcases r6 with _ | ⟨c, rest'⟩
          · obtain ⟨hp, _⟩ := Prod.mk.injEq .. ▸ Option.some.inj h
            obtain ⟨x1, x2⟩ := Prod.mk.injEq .. ▸ hp
            obtain ⟨x3, x4⟩ := Prod.mk.injEq .. ▸ x2
            exact ⟨x1, x3, x4⟩
          · dsimp only at h
            by_cases hw : isWordC c = true
            · rw [hw] at h; simp at h
            · rw [Bool.not_eq_true] at hw
              rw [hw] at h
              simp only [Bool.false_eq_true, if_false] at h
              obtain ⟨hp, _⟩ := Prod.mk.injEq .. ▸ Option.some.inj h
              obtain ⟨x1, x2⟩ := Prod.mk.injEq .. ▸ hp
              obtain ⟨x3, x4⟩ := Prod.mk.injEq .. ▸ x2
              exact ⟨x1, x3, x4⟩
        obtain ⟨rfl, rfl, rfl⟩ := hg
        exact ⟨s1, s2, s3, s4, s5, s6⟩

theorem ecsAttempt_shape (cs : Chars) (g : EcsGroups) (rest : Chars)
    (h : ecsAttempt cs = some (g, rest)) :
    isDigitC g.g1 = true ∧ (g.g2.length = 3 ∨ g.g2.length = 2) ∧
    (∀ c ∈ g.g2, isAlphaC c = true) ∧
    g.g3.length = 2 ∧ (∀ c ∈ g.g3, isAlnumC c = true) ∧
    g.g4.length = 2 ∧ (∀ c ∈ g.g4, isAlphaC c = true) := by
  cases cs with
  | nil => rw [ecsAttempt] at h; exact absurd h (by simp)
  | cons c cs' =>
    rw [ecsAttempt] at h
    by_cases hd : isDigitC c = true
    · rw [hd] at h
      simp only [if_true] at h
      rcases h3 : ecsTail 3 (dropWs cs') with _ | ⟨⟨a2, a3, a4⟩, r⟩ <;> rw [h3] at h
      · dsimp only at h
        rcases h2 : ecsTail 2 (dropWs cs') with _ | ⟨⟨b2, b3, b4⟩, r'⟩ <;> rw [h2] at h
        · exact absurd h (by simp)
        · dsimp only at h
          obtain ⟨hg, _⟩ := Prod.mk.injEq .. ▸ Option.some.inj h
          obtain ⟨s1, s2, s3, s4, s5, s6⟩ :=
            ecsTail_shape 2 (dropWs cs') b2 b3 b4 r' h2
          subst hg
          exact ⟨hd, Or.inr s1, s2, s3, s4, s5, s6⟩
      · dsimp only at h
        obtain ⟨hg, _⟩ := Prod.mk.injEq .. ▸ Option.some.inj h
        obtain ⟨s1, s2, s3, s4, s5, s6⟩ :=
          ecsTail_shape 3 (dropWs cs') a2 a3 a4 r h3
        subst hg
        exact ⟨hd, Or.inl s1, s2, s3, s4, s5, s6⟩
    · rw [Bool.not_eq_true] at hd
      rw [hd] at h
      simp at h

theorem upC_mem_of_alnum {x : Char} (h : isAlnumC x = true) :
    upC x ∈ UPPERS ∨ upC x ∈ DIGITS := by
  rcases Bool.or_eq_true_iff.mp h with h' | h'
  · exact Or.inl (upC_mem_UPPERS_of_alpha h')
  · have hm := mem_of_isDigitC h'
    rw [(ball_DIGITS x hm).1]
    exact Or.inr hm

theorem map_id_of (f : Char → Char) :
    ∀ l : Chars, (∀ x ∈ l, f x = x) → l.map f = l := by
  intro l
  induction l with
  | nil => intro _; rfl
  | cons c cs ih =>
    intro h
    rw [List.map_cons, h c (List.mem_cons_self c cs),
      ih (fun x hx => h x (List.mem_cons_of_mem c hx))]

/-- Matching `_ECS_BASE_RE` at the start of an already normalized base
code (digit, then 2–3 uppercase letters, 2 uppercase alphanumerics, and
2 uppercase letters with no separators) succeeds, consumes the whole
code, and captures exactly its four segments. -/
theorem ecsAttempt_on_base (g1 : Char) (A B C : Chars)
    (hd : isDigitC g1 = true)
    (hA : ∀ a ∈ A, a ∈ UPPERS) (hAlen : A.length = 3 ∨ A.length = 2)
    (hB : ∀ b ∈ B, b ∈ UPPERS ∨ b ∈ DIGITS) (hBlen : B.length = 2)
    (hC : ∀ c ∈ C, c ∈ UPPERS) (hClen : C.length = 2) :
    ecsAttempt (g1 :: (A ++ B ++ C)) = some (⟨g1, A, B, C⟩, []) := by
  obtain ⟨d, e, rfl⟩ := List.length_eq_two.mp hBlen
  obtain ⟨f, g, rfl⟩ := List.length_eq_two.mp hClen
  have hdm := hB d (by simp)
  have hem := hB e (by simp)
  have hfm := hC f (by simp)
  have hgm := hC g (by simp)
  obtain ⟨hd1, hd2, hd3, hd4, hd5⟩ := fixed_upC_of_mem hdm
  obtain ⟨he1, he2, he3, he4, he5⟩ := fixed_upC_of_mem hem
  obtain ⟨hf1, hf2, hf3, hf4, hf5⟩ := fixed_upC_of_mem (Or.inl hfm)
  have hdal := isAlnumC_of_mem hdm
  have heal := isAlnumC_of_mem hem
  have hfal := isAlnumC_of_mem (Or.inl hfm)
  have hfa := isAlphaC_of_mem_UPPERS hfm
  have hga := isAlphaC_of_mem_UPPERS hgm
  rcases hAlen with hA3 | hA2
  · obtain ⟨a, b, c3, rfl⟩ := List.length_eq_three.mp hA3
    have ham := hA a (by simp)
    have hbm := hA b (by simp)
    have hcm := hA c3 (by simp)
    obtain ⟨ha1, ha2, ha3, ha4, ha5⟩ := fixed_upC_of_mem (Or.inl ham)
    have haa := isAlphaC_of_mem_UPPERS ham
    have hba := isAlphaC_of_mem_UPPERS hbm
    have hca := isAlphaC_of_mem_UPPERS hcm
    simp only [List.cons_append, List.nil_append]
    have htail : ecsTail 3 (a :: b :: c3 :: d :: e :: f :: g :: []) =
        some (([a, b, c3], [d, e], [f, g]), []) := by
      rw [ecsTail, takeClass_three isAlphaC a b c3 _ haa hba hca]
      dsimp only
      rw [dropSep_cons_not d _ hd2, takeClass_two isAlnumC d e _ hdal heal]
      · dsimp only
        rw [dropWs_cons_not f _ hf2, takeClass_two isAlphaC f g _ hfa hga]
      · exact hd4
      · exact hd5
    rw [ecsAttempt, hd]
    simp only [if_true]
    rw [dropWs_cons_not a _ ha2, htail]
  · obtain ⟨a, b, rfl⟩ := List.length_eq_two.mp hA2
    have ham := hA a (by simp)
    have hbm := hA b (by simp)
    obtain ⟨ha1, ha2, ha3, ha4, ha5⟩ := fixed_upC_of_mem (Or.inl ham)
    have haa := isAlphaC_of_mem_UPPERS ham
    have hba := isAlphaC_of_mem_UPPERS hbm
    simp only [List.cons_append, List.nil_append]
    have htail3 : ecsTail 3 (a :: b :: d :: e :: f :: g :: []) = none := by
      rcases hdm with hdU | hdD
      · have hda := isAlphaC_of_mem_UPPERS hdU
        rw [ecsTail, takeClass_three isAlphaC a b d _ haa hba hda]
        dsimp only
        rw [dropSep_cons_not e _ he2 he4 he5, takeClass_two isAlnumC e f _ heal hfal]
        dsimp only
        rw [dropWs_cons_not g _ (fixed_upC_of_mem (Or.inl hgm)).2.1,
          takeClass_two_short isAlphaC g]
      · have hda : isAlphaC d = false := (ball_DIGITS d hdD).2.2.2.2.2.2
        rw [ecsTail, takeClass_three_fail isAlphaC a b d _ haa hba hda]
    have htail2 : ecsTail 2 (a :: b :: d :: e :: f :: g :: []) =
        some (([a, b], [d, e], [f, g]), []) := by
      rw [ecsTail, takeClass_two isAlphaC a b _ haa hba]
      dsimp only
      rw [dropSep_cons_not d _ hd2 hd4 hd5, takeClass_two isAlnumC d e _ hdal heal]
      dsimp only
      rw [dropWs_cons_not f _ hf2, takeClass_two isAlphaC f g _ hfa hga]
    rw [ecsAttempt, hd]
    simp only [if_true]
    rw [dropWs_cons_not a _ ha2, htail3]
    dsimp only
    rw [htail2]

/-! ### Claim theorems -/

/-- Claim C1, counterexample: on a text whose sole whole-word `Manpower`
occurs before `Today’s Tasks`, the code clips to the empty zone (the end
search runs over the whole text, not only at or after the start) and
returns no rows, while the zone claimed by C1 (first `Manpower` at or
after the start, here absent, so the text's end) would yield the row
`("1HNX10ST", "2292")`. -/
theorem C1_counterexample :
    extract_ecs_rows "Manpower Today’s Tasks 1HNX10ST 2292" = [] ∧
    ecsRowsOfZone (claimClipZone "Manpower Today’s Tasks 1HNX10ST 2292".data) =
      [("1HNX10ST", "2292")] ∧
    _clip_relevant_zone "Manpower Today’s Tasks 1HNX10ST 2292".data ≠
      claimClipZone "Manpower Today’s Tasks 1HNX10ST 2292".data :=
  ⟨rfl, rfl, by decide⟩

/-- Claim C1, amended: the extraction zone starts at the first
case-insensitive `Today[’']?s Tasks` match (position 0 if none) and ends
at the first case-insensitive whole-word `Manpower` match anywhere in the
text (the text's end if none) — even when that end precedes the start, in
which case the zone is empty; `extract_ecs_rows` computes its rows from
that zone substring alone, so no equipment-code match outside it
contributes any row. -/
theorem C1_zone_clipping (t : String) :
    ∃ a b, zoneStartSpec t.data a ∧ zoneEndSpec t.data b ∧
      extract_ecs_rows t = ecsRowsOfZone (sliceList t.data a b) := by
  cases hs : scanIdx todaysAttempt t.data 0 with
  | none =>
    have hstart : zoneStartSpec t.data 0 :=
      Or.inr ⟨fun j => scanIdx_eq_none _ rfl _ _ hs j, rfl⟩
    cases hm : scanPrevIdx manpowerAttempt t.data none 0 with
    | none =>
      refine ⟨0, t.data.length, hstart,
        Or.inr ⟨fun j hb => scanPrevIdx_eq_none _ rfl _ _ _ hm j hb, rfl⟩, ?_⟩
      simp only [extract_ecs_rows, _clip_relevant_zone, hs, hm]
    | some p =>
      obtain ⟨i, v⟩ := p
      obtain ⟨j, hij, hbj, hfj, hmin⟩ := scanPrevIdx_eq_some _ _ _ _ _ _ hm
      have hji : i = j := by omega
      subst hji
      refine ⟨0, i, hstart, Or.inl ⟨hbj, hfj, hmin⟩, ?_⟩
      simp only [extract_ecs_rows, _clip_relevant_zone, hs, hm]
  | some p =>
    obtain ⟨i, v⟩ := p
    obtain ⟨j, hij, hfj, hmin⟩ := scanIdx_eq_some _ _ _ _ _ hs
    have hji : i = j := by omega
    subst hji
    have hstart : zoneStartSpec t.data i := Or.inl ⟨hfj, hmin⟩
    cases hm : scanPrevIdx manpowerAttempt t.data none 0 with
    | none =>
      refine ⟨i, t.data.length, hstart,
        Or.inr ⟨fun j hb => scanPrevIdx_eq_none _ rfl _ _ _ hm j hb, rfl⟩, ?_⟩
      simp only [extract_ecs_rows, _clip_relevant_zone, hs, hm]
    | some q =>
      obtain ⟨k, w⟩ := q
      obtain ⟨j2, hk2, hbj2, hfj2, hmin2⟩ := scanPrevIdx_eq_some _ _ _ _ _ _ hm
      have hk2' : k = j2 := by omega
      subst hk2'
      refine ⟨i, k, hstart, Or.inl ⟨hbj2, hfj2, hmin2⟩, ?_⟩
      simp only [extract_ecs_rows, _clip_relevant_zone, hs, hm]

/-- Claim C2, counterexample: when the same equipment code matches twice,
the per-chunk `seen` reset lets the same `(code, item)` pair be emitted
once per chunk, so the output of a single document can contain it twice. -/
theorem C2_counterexample :
    extract_ecs_rows "1HNX10ST 2292 1HNX10ST 2292" =
      [("1HNX10ST", "2292"), ("1HNX10ST", "2292")] ∧
    ¬ (extract_ecs_rows "1HNX10ST 2292 1HNX10ST 2292").Nodup :=
  ⟨rfl, by decide⟩

/-- Claim C2, amended: within the rows emitted for any single chunk of a
document, the same `(EquipmentCode, WorkItem)` pair is never emitted
twice, even if the raw text repeats the item inside that chunk;
duplicates can only arise across distinct chunks. -/
theorem C2_chunk_nodup (t code : String) (chunk : Chars)
    (hmem : (code, chunk) ∈ chunksOf (_clip_relevant_zone t.data)) :
    (chunkRows code [] (chunkItems chunk)).Nodup :=
  chunkRows_nodup code _

/-- Witness for C2: the first chunk of the counterexample document has
duplicate-free rows. -/
theorem C2_chunk_nodup_witness :
    (chunkRows "1HNX10ST" [] (chunkItems [' ', '2', '2', '9', '2', ' '])).Nodup :=
  C2_chunk_nodup "1HNX10ST 2292 1HNX10ST 2292" "1HNX10ST"
    [' ', '2', '2', '9', '2', ' '] (by decide)

/-- Claim C7: rows are, chunk by chunk in code-match order, the chunk's
word-bounded item tokens in left-to-right order deduplicated within that
chunk only (first occurrence kept); the token sequence
`["2292","2292","0031.1","2292"]` dedups to `["2292","0031.1"]`, and the
same item under two different codes is kept independently. -/
theorem C7_chunk_dedup :
    (∀ t : String, extract_ecs_rows t =
        (chunksOf (_clip_relevant_zone t.data)).flatMap
          (fun p => (dedupFirstSpec (chunkItems p.2)).map (fun it => (p.1, it)))) ∧
    dedupFirstSpec ["2292", "2292", "0031.1", "2292"] = ["2292", "0031.1"] ∧
    extract_ecs_rows "1HNX10ST 2292 1HPB0NST 2292" =
      [("1HNX10ST", "2292"), ("1HPB0NST", "2292")] := by
  refine ⟨fun t => ?_, rfl, rfl⟩
  rw [extract_ecs_rows, ecsRowsOfZone]
  exact flatMap_congrF _ _ _ (fun p => chunkRows_eq_map_dedupFirstSpec p.1 (chunkItems p.2))

/-- Claim C8: the end-to-end scenario
`"1HNX10ST 2292 2292 blah 0031.1 1HPB0NST 5555"` yields exactly the rows
`[("1HNX10ST","2292"), ("1HNX10ST","0031.1"), ("1HPB0NST","5555")]`. -/
theorem C8_end_to_end :
    extract_ecs_rows "1HNX10ST 2292 2292 blah 0031.1 1HPB0NST 5555" =
      [("1HNX10ST", "2292"), ("1HNX10ST", "0031.1"), ("1HPB0NST", "5555")] := rfl

/-- Claim C3: when the primary date pattern matches, the work date is
built with day = the matched integer, month = the matched month name
mapped January=1 … December=12, and year = the captured year when present
else `assumed_year`; `"7th January 2024"` gives 2024-01-07 for every
`assumed_year`, and `"7 January"` with `assumed_year` 2025 gives
2025-01-07. -/
theorem C3_primary_date :
    (∀ ay : Nat, extract_metadata "7th January 2024" ay =
      ⟨"", "", .made 2024 1 7⟩) ∧
    extract_metadata "7 January" 2025 = ⟨"", "", .made 2025 1 7⟩ ∧
    MONTHS.map (fun m => monthNumOf m.data) = [1, 2, 3, 4, 5, 6, 7, 8, 9, 10, 11, 12] ∧
    (∀ (t : String) (ay : Nat) (dm : DateMatch), primarySearch t.data = some dm →
      validDate (dm.year.getD ay) (monthNumOf dm.monthName) dm.day = true →
      extract_metadata t ay =
        ⟨signedName "Supervisor" t.data, signedName "Superintendent" t.data,
          .made (dm.year.getD ay) (monthNumOf dm.monthName) dm.day⟩) := by
  refine ⟨fun ay => rfl, rfl, rfl, fun t ay dm h hv => ?_⟩
  rw [extract_metadata, h]
  dsimp only
  rw [if_pos hv]

/-- Witness for C3 applying its general clause at a concrete input. -/
theorem C3_primary_date_witness :
    extract_metadata "7th January 2024" 1999 =
      ⟨signedName "Supervisor" "7th January 2024".data,
        signedName "Superintendent" "7th January 2024".data, .made 2024 1 7⟩ :=
  C3_primary_date.2.2.2 "7th January 2024" 1999
    ⟨7, "January".data, some 2024⟩ rfl rfl

/-- Claim C4: when the primary date pattern matches a combination that is
not a valid calendar date, the date construction error is the outcome of
`extract_metadata` — it is not caught, retried, or replaced by a fallback
internally, and so propagates to the per-document caller. -/
theorem C4_invalid_date (t : String) (ay : Nat) (dm : DateMatch)
    (h : primarySearch t.data = some dm)
    (hv : validDate (dm.year.getD ay) (monthNumOf dm.monthName) dm.day = false) :
    extract_metadata t ay =
      ⟨signedName "Supervisor" t.data, signedName "Superintendent" t.data,
        .invalid (dm.year.getD ay) (monthNumOf dm.monthName) dm.day⟩ := by
  rw [extract_metadata, h]
  dsimp only
  rw [if_neg (by rw [hv]; exact Bool.false_ne_true)]

/-- Witness for C4 at `"31st February 2024"` (February has no day 31). -/
theorem C4_invalid_date_witness :
    extract_metadata "31st February 2024" 2025 =
      ⟨signedName "Supervisor" "31st February 2024".data,
        signedName "Superintendent" "31st February 2024".data, .invalid 2024 2 31⟩ :=
  C4_invalid_date "31st February 2024" 2025 ⟨31, "February".data, some 2024⟩ rfl rfl

/-- Claim C6, counterexample: on `"Date 05/03/2024"` the primary pattern
finds no match and the fallback trigger as claimed (`Date` followed by a
newline) finds no match either, yet the code does not return January 1 of
`assumed_year`: its fallback regex accepts `Date` with no newline and
hands `"05/03/2024"` to the external lenient parser. -/
theorem C6_counterexample :
    primarySearch "Date 05/03/2024".data = none ∧
    (extract_metadata "Date 05/03/2024" 2025).work_date = .lenient "05/03/2024" 2025 ∧
    (extract_metadata "Date 05/03/2024" 2025).work_date ≠ .made 2025 1 1 :=
  ⟨rfl, rfl, by decide⟩

/-- Claim C6, amended: when the primary pattern finds no match and the
code's fallback pattern (the literal `Date`, case-insensitive and not
word-bounded, followed by optional whitespace — newlines included — and a
captured rest-of-line) finds no match or captures only whitespace,
`extract_metadata` returns January 1 of `assumed_year` (for `assumed_year`
between 1 and 9999, the range of constructible dates). -/
theorem C6_last_resort (t : String) (ay : Nat)
    (hp : primarySearch t.data = none)
    (hf : fallbackSearch t.data = none ∨ fallbackSearch t.data = some [])
    (h1 : 1 ≤ ay) (h2 : ay ≤ 9999) :
    extract_metadata t ay =
      ⟨signedName "Supervisor" t.data, signedName "Superintendent" t.data,
        .made ay 1 1⟩ := by
  have hv : validDate ay 1 1 = true := by
    simp only [validDate, daysInMonth, Bool.and_eq_true, decide_eq_true_eq]
    refine ⟨⟨⟨⟨⟨h1, h2⟩, Nat.le_refl 1⟩, by omega⟩, Nat.le_refl 1⟩, by simp⟩
  rcases hf with hf | hf
  · rw [extract_metadata, hp, hf]
    dsimp only
    rw [if_pos hv]
  · rw [extract_metadata, hp, hf]
    dsimp only
    rw [if_neg (by simp), if_pos hv]

/-- Witness for C6 at a text with neither a date phrase nor the word
`date`. -/
theorem C6_last_resort_witness :
    extract_metadata "hello world" 2025 =
      ⟨signedName "Supervisor" "hello world".data,
        signedName "Superintendent" "hello world".data, .made 2025 1 1⟩ :=
  C6_last_resort "hello world" 2025 rfl (Or.inl rfl) (by omega) (by omega)

/-- Claim C9: normalization is its own fixed point — whenever
`normalize_ecs_base` returns a code `s`, applying it to `s` returns `s`
again. -/
theorem C9_idempotent (raw s : String) (h : normalize_ecs_base raw = some s) :
    normalize_ecs_base s = some s := by
  rw [normalize_ecs_base] at h
  by_cases hraw : raw.data = []
  · rw [if_pos hraw] at h
    exact absurd h (by simp)
  · rw [if_neg hraw] at h
    rcases hsearch : ecsSearch (_clean_spaces (raw.data.map upC)) with _ | g <;>
      rw [hsearch] at h
    · exact absurd h (by simp)
    · have hs : s = String.mk (ecsBaseOf g) := (Option.some.inj h).symm
      rw [ecsSearch] at hsearch
      rcases hscan : scanPrevIdx ecsAttempt (_clean_spaces (raw.data.map upC)) none 0 with
        _ | p <;> rw [hscan] at hsearch
      · exact absurd hsearch (by simp)
      · obtain ⟨i, q⟩ := p
        have hq : q.1 = g := Option.some.inj hsearch
        obtain ⟨j, _, _, hfj, _⟩ := scanPrevIdx_eq_some ecsAttempt _ _ _ _ _ hscan
        have hatt : ecsAttempt ((_clean_spaces (raw.data.map upC)).drop j) =
            some (g, q.2) := by rw [hfj, ← hq]
        obtain ⟨hg1, hg2len, hg2mem, hg3len, hg3mem, hg4len, hg4mem⟩ :=
          ecsAttempt_shape _ _ _ hatt
        have hA : ∀ a ∈ g.g2.map upC, a ∈ UPPERS := by
          intro a ha
          obtain ⟨x, hx, rfl⟩ := List.mem_map.mp ha
          exact upC_mem_UPPERS_of_alpha (hg2mem x hx)
        have hAlen : (g.g2.map upC).length = 3 ∨ (g.g2.map upC).length = 2 := by
          rw [List.length_map]; exact hg2len
        have hB : ∀ b ∈ g.g3.map upC, b ∈ UPPERS ∨ b ∈ DIGITS := by
          intro b hb
          obtain ⟨x, hx, rfl⟩ := List.mem_map.mp hb
          exact upC_mem_of_alnum (hg3mem x hx)
        have hBlen : (g.g3.map upC).length = 2 := by rw [List.length_map]; exact hg3len
        have hC : ∀ c ∈ g.g4.map upC, c ∈ UPPERS := by
          intro c hc
          obtain ⟨x, hx, rfl⟩ := List.mem_map.mp hc
          exact upC_mem_UPPERS_of_alpha (hg4mem x hx)
        have hClen : (g.g4.map upC).length = 2 := by rw [List.length_map]; exact hg4len
        have hattempt := ecsAttempt_on_base g.g1 (g.g2.map upC) (g.g3.map upC)
          (g.g4.map upC) hg1 hA hAlen hB hBlen hC hClen
        have hg1d := ball_DIGITS g.g1 (mem_of_isDigitC hg1)
        have htailmem : ∀ x ∈ g.g2.map upC ++ g.g3.map upC ++ g.g4.map upC,
            x ∈ UPPERS ∨ x ∈ DIGITS := by
          intro x hx
          rcases List.mem_append.mp hx with hx' | hx'
          · rcases List.mem_append.mp hx' with hx'' | hx''
            · exact Or.inl (hA x hx'')
            · exact hB x hx''
          · exact Or.inl (hC x hx')
        have hmapfix : (ecsBaseOf g).map upC = ecsBaseOf g := by
          rw [ecsBaseOf, List.map_cons, hg1d.1]
          congr 1
          exact map_id_of upC _ (fun x hx => (fixed_upC_of_mem (htailmem x hx)).1)
        have hcleanfix : _clean_spaces (ecsBaseOf g) = ecsBaseOf g := by
          apply clean_spaces_id_of
          intro c hc
          rw [ecsBaseOf] at hc
          rcases List.mem_cons.mp hc with rfl | hc'
          · exact ⟨hg1d.2.2.2.1, hg1d.2.2.1⟩
          · obtain ⟨_, hw, hst, _, _⟩ := fixed_upC_of_mem (htailmem c hc')
            exact ⟨hst, hw⟩
        have hfix2 : (g.g2.map upC).map upC = g.g2.map upC :=
          map_id_of upC _ (fun x hx => (ball_UPPERS x (hA x hx)).1)
        have hfix3 : (g.g3.map upC).map upC = g.g3.map upC :=
          map_id_of upC _ (fun x hx => (fixed_upC_of_mem (hB x hx)).1)
        have hfix4 : (g.g4.map upC).map upC = g.g4.map upC :=
          map_id_of upC _ (fun x hx => (ball_UPPERS x (hC x hx)).1)
        subst hs
        rw [normalize_ecs_base]
        have hne : (String.mk (ecsBaseOf g)).data ≠ [] := by
          rw [ecsBaseOf]
          simp
        rw [if_neg hne]
        have hdata : (String.mk (ecsBaseOf g)).data.map upC = ecsBaseOf g := by
          show (ecsBaseOf g).map upC = ecsBaseOf g
          exact hmapfix
        rw [hdata, hcleanfix, ecsSearch, ecsBaseOf, scanPrevIdx]
        have hbnd : boundaryB none = true := rfl
        rw [hbnd]
        simp only [if_true]
        rw [hattempt]
        dsimp only
        have hbase : ecsBaseOf (⟨g.g1, g.g2.map upC, g.g3.map upC, g.g4.map upC⟩ :
            EcsGroups) = g.g1 :: (g.g2.map upC ++ g.g3.map upC ++ g.g4.map upC) := by
          rw [ecsBaseOf]
          dsimp only
          rw [hfix2, hfix3, hfix4]
        exact congrArg (fun l : Chars => some (String.mk l)) hbase

/-- Witness for C9 applying it at a concrete raw spelling. -/
theorem C9_idempotent_witness :
    normalize_ecs_base "1HNX10ST" = some "1HNX10ST" :=
  C9_idempotent "1 HNX 10 ST" "1HNX10ST" rfl

/-- Claim C10: `normalize_ecs_base` is total (a Lean function, never
raising); it returns `none` exactly when the input is empty or the
equipment-code pattern matches at no position of the space-collapsed,
uppercased input, and otherwise it returns the uppercase, separator-free
concatenation of the four captured segments of the leftmost match. -/
theorem C10_none_or_leftmost (raw : String) :
    (normalize_ecs_base raw = none ↔
      (raw = "" ∨ ∀ j, boundaryB (prevAtP none (_clean_spaces (raw.data.map upC)) j) = true →
        ecsAttempt ((_clean_spaces (raw.data.map upC)).drop j) = none)) ∧
    (∀ s, normalize_ecs_base raw = some s →
      ∃ j g rest, boundaryB (prevAtP none (_clean_spaces (raw.data.map upC)) j) = true ∧
        ecsAttempt ((_clean_spaces (raw.data.map upC)).drop j) = some (g, rest) ∧
        (∀ j' < j, boundaryB (prevAtP none (_clean_spaces (raw.data.map upC)) j') = true →
          ecsAttempt ((_clean_spaces (raw.data.map upC)).drop j') = none) ∧
        s = String.mk (g.g1 :: (g.g2.map upC ++ g.g3.map upC ++ g.g4.map upC))) := by
  have hempty : raw = "" ↔ raw.data = [] := by
    constructor
    · intro h; rw [h]
    · intro h
      cases raw with
      | mk d => cases h; rfl
  constructor
  · constructor
    · intro hn
      rw [normalize_ecs_base] at hn
      by_cases hraw : raw.data = []
      · exact Or.inl (hempty.mpr hraw)
      · rw [if_neg hraw] at hn
        rcases hsearch : ecsSearch (_clean_spaces (raw.data.map upC)) with _ | g <;>
          rw [hsearch] at hn
        · rw [ecsSearch] at hsearch
          rcases hscan : scanPrevIdx ecsAttempt (_clean_spaces (raw.data.map upC)) none 0 with
            _ | p <;> rw [hscan] at hsearch
          · exact Or.inr (fun j hb => scanPrevIdx_eq_none ecsAttempt rfl _ _ _ hscan j hb)
          · exact absurd hsearch (by simp)
        · exact absurd hn (by simp)
    · intro hc
      rcases hc with hc | hc
      · rw [hc]; rfl
      · rw [normalize_ecs_base]
        by_cases hraw : raw.data = []
        · rw [if_pos hraw]
        · rw [if_neg hraw]
          rcases hscan : scanPrevIdx ecsAttempt (_clean_spaces (raw.data.map upC)) none 0 with
            _ | p
          · rw [ecsSearch, hscan]
            rfl
          · obtain ⟨j, _, hbj, hfj, _⟩ := scanPrevIdx_eq_some ecsAttempt _ _ _ _ _ hscan
            exact absurd hfj (by rw [hc j hbj]; simp)
  · intro s h
    rw [normalize_ecs_base] at h
    by_cases hraw : raw.data = []
    · rw [if_pos hraw] at h
      exact absurd h (by simp)
    · rw [if_neg hraw] at h
      rcases hsearch : ecsSearch (_clean_spaces (raw.data.map upC)) with _ | g <;>
        rw [hsearch] at h
      · exact absurd h (by simp)
      · have hs : s = String.mk (ecsBaseOf g) := (Option.some.inj h).symm
        rw [ecsSearch] at hsearch
        rcases hscan : scanPrevIdx ecsAttempt (_clean_spaces (raw.data.map upC)) none 0 with
          _ | p <;> rw [hscan] at hsearch
        · exact absurd hsearch (by simp)
        · obtain ⟨i, q⟩ := p
          have hq : q.1 = g := Option.some.inj hsearch
          obtain ⟨j, _, hbj, hfj, hmin⟩ := scanPrevIdx_eq_some ecsAttempt _ _ _ _ _ hscan
          refine ⟨j, g, q.2, hbj, ?_, hmin, ?_⟩
          · rw [hfj, ← hq]
          · rw [hs, ecsBaseOf]

/-- Witness for C10 applying its leftmost-match clause at a concrete
input accepted through the optional hyphen. -/
theorem C10_none_or_leftmost_witness :
    ∃ j g rest,
      boundaryB (prevAtP none (_clean_spaces ("1HK-10SE".data.map upC)) j) = true ∧
      ecsAttempt ((_clean_spaces ("1HK-10SE".data.map upC)).drop j) = some (g, rest) ∧
      (∀ j' < j, boundaryB (prevAtP none (_clean_spaces ("1HK-10SE".data.map upC)) j') = true →
        ecsAttempt ((_clean_spaces ("1HK-10SE".data.map upC)).drop j') = none) ∧
      ("1HK10SE" : String) = String.mk (g.g1 :: (g.g2.map upC ++ g.g3.map upC ++ g.g4.map upC)) :=
  (C10_none_or_leftmost "1HK-10SE").2 "1HK10SE" rfl

/-- Claim C5, counterexample: a single-letter name after
`Signed (Supervisor)` is rejected by the code's capture
`[A-Za-z][A-Za-z '\-]+` (which needs at least two characters), so the
supervisor field is empty rather than `"J"` as the claim's
one-or-more-characters reading requires; and the code's
`Signed\s*\(Supervisor\)` also accepts `Signed(Supervisor)` with no
space, which contains no occurrence of the claim's literal phrase
`Signed (Supervisor)` yet yields a non-empty supervisor. -/
theorem C5_counterexample :
    (extract_metadata "Signed (Supervisor) J\n" 2024).supervisor = "" ∧
    (extract_metadata "Signed (Supervisor) J\n" 2024).supervisor ≠ "J" ∧
    (extract_metadata "Signed(Supervisor) Bob\n" 2024).supervisor = "Bob" :=
  ⟨rfl, by decide, rfl⟩

/-- Claim C5, amended: the supervisor field is the space-collapsed,
trimmed capture of the first `Signed (Supervisor)` occurrence followed
(after optional whitespace) by a letter and then one or more further
characters drawn from letters, spaces, apostrophes, and hyphens (at least
two characters in total), and the empty string when there is no such
occurrence; the superintendent field obeys the identical rule with
`Signed (Superintendent)`; `"Signed (Supervisor) John O'Brien\n"` yields
`"John O'Brien"`. -/
theorem C5_signature_extraction :
    (∀ (phrase : String) (cs g : Chars), signedAttempt phrase cs = some g →
      ∃ c run, g = c :: run ∧ isAlphaC c = true ∧ run ≠ [] ∧
        ∀ x ∈ run, (isAlphaC x || x = ' ' || x = apoC || x = '-') = true) ∧
    (∀ (t : String) (ay : Nat),
      ((∃ j g, signedAttempt "Supervisor" (t.data.drop j) = some g ∧
          (∀ j' < j, signedAttempt "Supervisor" (t.data.drop j') = none) ∧
          (extract_metadata t ay).supervisor = String.mk (_clean_spaces g)) ∨
        ((∀ j, signedAttempt "Supervisor" (t.data.drop j) = none) ∧
          (extract_metadata t ay).supervisor = "")) ∧
      ((∃ j g, signedAttempt "Superintendent" (t.data.drop j) = some g ∧
          (∀ j' < j, signedAttempt "Superintendent" (t.data.drop j') = none) ∧
          (extract_metadata t ay).superintendent = String.mk (_clean_spaces g)) ∨
        ((∀ j, signedAttempt "Superintendent" (t.data.drop j) = none) ∧
          (extract_metadata t ay).superintendent = ""))) ∧
    (extract_metadata ("Signed (Supervisor) John O" ++ String.mk [apoC] ++ "Brien\n")
        2025).supervisor = "John O" ++ String.mk [apoC] ++ "Brien" := by
  refine ⟨?_, ?_, rfl⟩
  · intro phrase cs g h
    rw [signedAttempt] at h
    rcases h1 : litCI "signed".data cs with _ | r1 <;> rw [h1] at h
    · exact absurd h (by simp)
    · dsimp only at h
      rcases h3 : litCI ("(" ++ phrase ++ ")").data (dropWs r1) with _ | r3 <;> rw [h3] at h
      · exact absurd h (by simp)
      · dsimp only at h
        rcases hm : dropWs r3 with _ | ⟨c, tl⟩ <;> rw [hm] at h
        · exact absurd h (by simp)
        · dsimp only at h
          by_cases ha : isAlphaC c = true
          · rw [if_pos ha] at h
            by_cases hr : tl.takeWhile (fun x => isAlphaC x || x = ' ' || x = apoC || x = '-') = []
            · rw [if_pos hr] at h
              exact absurd h (by simp)
            · rw [if_neg hr] at h
              refine ⟨c, tl.takeWhile (fun x => isAlphaC x || x = ' ' || x = apoC || x = '-'),
                (Option.some.inj h).symm, ha, hr, ?_⟩
              intro x hx
              exact List.mem_takeWhile_imp (p := fun x =>
                isAlphaC x || x = ' ' || x = apoC || x = '-') hx
          · rw [if_neg ha] at h
            exact absurd h (by simp)
  · intro t ay
    constructor
    · rw [extract_metadata_supervisor]
      cases hscan : scanIdx (signedAttempt "Supervisor") t.data 0 with
      | none =>
        refine Or.inr ⟨fun j => scanIdx_eq_none _ rfl _ _ hscan j, ?_⟩
        rw [signedName, hscan]
      | some p =>
        obtain ⟨i, g⟩ := p
        obtain ⟨j, hij, hfj, hmin⟩ := scanIdx_eq_some _ _ _ _ _ hscan
        refine Or.inl ⟨j, g, hfj, hmin, ?_⟩
        rw [signedName, hscan]
    · rw [extract_metadata_superintendent]
      cases hscan : scanIdx (signedAttempt "Superintendent") t.data 0 with
      | none =>
        refine Or.inr ⟨fun j => scanIdx_eq_none _ rfl _ _ hscan j, ?_⟩
        rw [signedName, hscan]
      | some p =>
        obtain ⟨i, g⟩ := p
        obtain ⟨j, hij, hfj, hmin⟩ := scanIdx_eq_some _ _ _ _ _ hscan
        refine Or.inl ⟨j, g, hfj, hmin, ?_⟩
        rw [signedName, hscan]

/-- Witness for C5 applying its capture-shape clause at a concrete
input. -/
theorem C5_signature_extraction_witness :
    ∃ c run, ("Jo".data : Chars) = c :: run ∧ isAlphaC c = true ∧ run ≠ [] ∧
      ∀ x ∈ run, (isAlphaC x || x = ' ' || x = apoC || x = '-') = true :=
  C5_signature_extraction.1 "Supervisor" "Signed (Supervisor) Jo".data "Jo".data rfl

end HL2
